import Mathlib

/-!
Shallow embedding of the air-traffic-controller OS simulator (`src/air.cpp`)
and verification of its natural-language specification.

Modelling conventions:
* `Plane` mirrors `struct Plane`; the numeric fields other than `id` are
  used only with non-negative values (the spec declares them non-negative),
  so they are modelled as `Nat`; `id` is `Int` because the code uses `-1`
  as a sentinel.
* The airspace `vector<int> memory` is a `List Nat` (0 = free, 1 = occupied).
* `memory.size() - size` in `MemoryManager::allocate` is `size_t`
  subtraction, modelled faithfully as `(length + 2 ^ 64 - size) % 2 ^ 64`,
  which underflows for `size > length` exactly as the C++ does.
* A read `memory[i]` past the end of the vector is undefined behaviour in
  C++; the model signals it as `Except.error ()`.
* `std::sort` is modelled by `List.insertionSort`; the resulting list is a
  sorted permutation, which is all the code relies on (they agree except
  possibly on the relative order of planes equal under all three keys).
* The presentational pieces (console output, weather-delay sleep) have no
  effect on the state and are omitted, as the spec directs.
-/

/-- Mirror of `struct Plane` from `src/air.cpp` (default `emergency = false`). -/
structure Plane where
  id : Int
  arrivalTime : Nat
  fuelLevel : Nat
  size : Nat
  landingTime : Nat
  emergency : Bool := false
deriving DecidableEq

/-- The sentinel `Plane(-1, 0, 0, 0, 0)` returned by `getNextPlane` on an
empty ready queue. -/
def sentinelPlane : Plane := ⟨-1, 0, 0, 0, 0, false⟩

/-- Comparator `Scheduler::compare`: emergency flag descending, then fuel level
ascending, then landing time ascending.  `a.emergency > b.emergency` on C++
`bool`s means `a.emergency && !b.emergency`. -/
def Scheduler.compare (a b : Plane) : Bool :=
  if a.emergency ≠ b.emergency then a.emergency && !b.emergency
  else if a.fuelLevel ≠ b.fuelLevel then decide (a.fuelLevel < b.fuelLevel)
  else decide (a.landingTime < b.landingTime)

/-- The non-strict order induced by `Scheduler::compare`; `std::sort` with a
strict-weak comparator produces a list sorted under this relation. -/
def planeLe (a b : Plane) : Prop := Scheduler.compare b a = false

instance : DecidableRel planeLe :=
  fun a b => inferInstanceAs (Decidable (Scheduler.compare b a = false))

/-- Extraction `Scheduler::getNextPlane`: on an empty queue return the sentinel;
otherwise sort the queue with `compare`, remove and return the front.
The returned pair is (extracted plane, remaining queue). -/
def Scheduler.getNextPlane (readyQueue : List Plane) : Plane × List Plane :=
  match List.insertionSort planeLe readyQueue with
  | [] => (sentinelPlane, [])
  | p :: rest => (p, rest)

/-- The write loop `for (i = start; i < start + len; ++i) memory[i] = v;`
(used by allocation marking with `v = 1` and by `deallocate` with `v = 0`;
`List.set` past the end is a no-op, and the code only ever writes ranges
returned by a successful in-bounds allocation). -/
def setRange : List Nat → Nat → Nat → Nat → List Nat
  | memory, _, 0, _ => memory
  | memory, start, len+1, v => setRange (memory.set start v) (start+1) len v

/-- The inner scan `int j = 0; while (j < size && memory[i + j] == 0) j++;`
of `MemoryManager::allocate`: number of consecutive free cells from `pos`,
capped at the budget.  Reading past the end of the vector is undefined
behaviour in C++ and is modelled as `Except.error ()`. -/
def freeRunLen (memory : List Nat) : Nat → Nat → Except Unit Nat
  | _, 0 => .ok 0
  | pos, budget+1 =>
    match memory[pos]? with
    | none => .error ()
    | some cell =>
      if cell = 0 then
        match freeRunLen memory (pos+1) budget with
        | .error e => .error e
        | .ok j => .ok (j+1)
      else .ok 0

/-- The outer loop of `MemoryManager::allocate`:
`for (int i = 0; i <= bound; ++i)` with the best-fit bookkeeping
`if (j == size && size < bestSize) { bestStart = i; bestSize = size; }`.
The `fuel` argument counts the remaining iterations (the C++ loop has no
other exit besides `i > bound` or crashing on an out-of-bounds read). -/
def allocScan (memory : List Nat) (size bound : Nat) :
    Nat → Nat → Int → Nat → Except Unit Int
  | 0, _, bestStart, _ => .ok bestStart
  | fuel+1, i, bestStart, bestSize =>
    if i ≤ bound then
      match freeRunLen memory i size with
      | .error e => .error e
      | .ok j =>
        if j = size ∧ size < bestSize then
          allocScan memory size bound fuel (i+1) (Int.ofNat i) size
        else
          allocScan memory size bound fuel (i+1) bestStart bestSize
    else .ok bestStart

/-- Allocation `MemoryManager::allocate`.  The loop bound `memory.size() - size` is
`size_t` subtraction, hence the `% 2 ^ 64` wrap-around; `bestStart` starts
at `-1` and `bestSize` at `memory.size() + 1`.  On success the chosen run
is marked occupied; the result is the pair (returned index, memory after
the call). -/
def MemoryManager.allocate (memory : List Nat) (size : Nat) :
    Except Unit (Int × List Nat) :=
  match allocScan memory size ((memory.length + 2 ^ 64 - size) % 2 ^ 64)
      ((memory.length + 2 ^ 64 - size) % 2 ^ 64 + 2) 0 (-1) (memory.length + 1) with
  | .error e => .error e
  | .ok bestStart =>
    if bestStart = -1 then .ok (-1, memory)
    else .ok (bestStart, setRange memory bestStart.toNat size 1)

/-- Release `MemoryManager::deallocate`: mark `[start, start + size)` free. -/
def MemoryManager.deallocate (memory : List Nat) (start size : Nat) : List Nat :=
  setRange memory start size 0

/-- Safety check `MemoryManager::isSafe`: count the free cells and compare with the
request. -/
def MemoryManager.isSafe (memory : List Nat) (reqSize : Nat) : Bool :=
  decide (memory.foldl (fun freeCount m => if m = 0 then freeCount + 1 else freeCount) 0
    ≥ reqSize)

/-- The mutable state of `simulate`: the not-yet-admitted arrivals, the
ready queue of the scheduler, the airspace, the clock and the Gantt list
(`vector<pair<int,int>> gantt` of (plane id, landing time)). -/
structure SimState where
  incoming : List Plane
  ready : List Plane
  mem : List Nat
  time : Nat
  gantt : List (Int × Nat)
deriving DecidableEq

/-- The admission sweep at the top of the loop body: move every incoming
plane with `arrivalTime <= time` to the ready queue, in order. -/
def admitStep (s : SimState) : SimState :=
  { s with
    incoming := s.incoming.filter (fun p => !(decide (p.arrivalTime ≤ s.time))),
    ready := s.ready ++ s.incoming.filter (fun p => decide (p.arrivalTime ≤ s.time)) }

/-- The rest of the loop body of `simulate`, after the admission sweep and
the extraction `current = getNextPlane()` (whose results are passed as
`cur` and `rest`): the sentinel test, the safety gate, the allocation
attempt with deferral, and the success path (record Gantt entry, advance
time by the landing time, release the run). -/
def dispatch (s1 : SimState) (cur : Plane) (rest : List Plane) :
    Except Unit SimState :=
  if cur.id = -1 then .ok { s1 with ready := rest, time := s1.time + 1 }
  else if MemoryManager.isSafe s1.mem cur.size = false then
    .ok { s1 with ready := rest ++ [cur], time := s1.time + 1 }
  else
    match MemoryManager.allocate s1.mem cur.size with
    | .error e => .error e
    | .ok (memIndex, mem2) =>
      if memIndex = -1 then
        .ok { s1 with ready := rest ++ [cur], mem := mem2, time := s1.time + 1 }
      else
        .ok { s1 with
                ready := rest,
                mem := MemoryManager.deallocate mem2 memIndex.toNat cur.size,
                time := s1.time + cur.landingTime,
                gantt := s1.gantt ++ [(cur.id, cur.landingTime)] }

/-- One full iteration of the `while` body of `simulate`. -/
def step (s : SimState) : Except Unit SimState :=
  dispatch (admitStep s) (Scheduler.getNextPlane (admitStep s).ready).1
    (Scheduler.getNextPlane (admitStep s).ready).2

/-- Modelled from the spec: the Timeline triple
`(entity.id, t, t + entity.serviceDuration)` that the spec says is appended
on a successful allocation at simulated time `t`.  The code itself stores
no such triple (it stores `(id, landingTime)`); this observer computes, for
one iteration starting in state `s1` after admission, the triple the spec
describes, and `none` on every other outcome. -/
def dispatchEvent (s1 : SimState) (cur : Plane) : Option (Int × Nat × Nat) :=
  if cur.id = -1 then none
  else if MemoryManager.isSafe s1.mem cur.size = false then none
  else
    match MemoryManager.allocate s1.mem cur.size with
    | .error _ => none
    | .ok (memIndex, _) =>
      if memIndex = -1 then none
      else some (cur.id, s1.time, s1.time + cur.landingTime)

/-- Modelled from the spec: the spec-described Timeline triple produced by
one iteration of the loop from state `s` (see `dispatchEvent`). -/
def stepEvent (s : SimState) : Option (Int × Nat × Nat) :=
  dispatchEvent (admitStep s) (Scheduler.getNextPlane (admitStep s).ready).1

/-- The `while (!incoming.empty() || !scheduler.readyQueue.empty())` loop of
`simulate`, with fuel (the loop need not terminate), also accumulating the
spec-described Timeline triples of `stepEvent` alongside the state of the code itself. -/
def runTl : Nat → SimState → List (Int × Nat × Nat) →
    Except Unit (SimState × List (Int × Nat × Nat))
  | 0, s, tl => .ok (s, tl)
  | fuel+1, s, tl =>
    if s.incoming = [] ∧ s.ready = [] then .ok (s, tl)
    else
      match step s with
      | .error e => .error e
      | .ok s2 => runTl fuel s2 (tl ++ (stepEvent s).toList)

/-- The initial state of `simulate`: `MemoryManager memory(20)`, `time = 0`,
empty ready queue and Gantt list. -/
def simInit (incoming : List Plane) : SimState :=
  ⟨incoming, [], List.replicate 20 0, 0, []⟩

/-- The Gantt-chart report printed at the end of `simulate`: starting from
`t = 0`, each entry `(planeID, duration)` is printed as
`(planeID, t, t + duration)` and `t` advances by `duration`. -/
def ganttReport (t : Nat) : List (Int × Nat) → List (Int × Nat × Nat)
  | [] => []
  | (planeID, duration) :: rest =>
    (planeID, t, t + duration) :: ganttReport (t + duration) rest

/-- The strict three-key priority order described by the spec: emergency
first, then strictly lower urgency (fuel), then strictly shorter service
duration (landing time). -/
def specLt (a b : Plane) : Prop :=
  (a.emergency = true ∧ b.emergency = false) ∨
  (a.emergency = b.emergency ∧ a.fuelLevel < b.fuelLevel) ∨
  (a.emergency = b.emergency ∧ a.fuelLevel = b.fuelLevel ∧
    a.landingTime < b.landingTime)

/-- The non-strict version of the three-key priority order of the spec:
`specLe a b` says `a` is at least as high priority as `b`. -/
def specLe (a b : Plane) : Prop :=
  (a.emergency = true ∧ b.emergency = false) ∨
  (a.emergency = b.emergency ∧ a.fuelLevel < b.fuelLevel) ∨
  (a.emergency = b.emergency ∧ a.fuelLevel = b.fuelLevel ∧
    a.landingTime ≤ b.landingTime)

instance : ∀ a b : Plane, Decidable (specLt a b) := fun _ _ => by
  unfold specLt; infer_instance

instance : ∀ a b : Plane, Decidable (specLe a b) := fun _ _ => by
  unfold specLe; infer_instance

/-- A contiguous run of `len` free cells starting at `start` (entirely
inside the pool: out-of-range reads are `none`, not `some 0`). -/
def freeRun (memory : List Nat) (start len : Nat) : Prop :=
  ∀ j < len, memory[start + j]? = some 0

instance : ∀ m s l, Decidable (freeRun m s l) := fun _ _ _ => by
  unfold freeRun; infer_instance

/-- Number of free cells of the pool (what the spec calls the count of currently free
units). -/
def countFree (memory : List Nat) : Nat := memory.countP (fun m => m == 0)

/-- Number of entities not yet released: still incoming plus ready. -/
def pending (s : SimState) : Nat := s.incoming.length + s.ready.length

instance {ε α : Type} [DecidableEq ε] [DecidableEq α] : DecidableEq (Except ε α) :=
  fun a b =>
    match a, b with
    | .error e1, .error e2 =>
      if h : e1 = e2 then .isTrue (h ▸ rfl)
      else .isFalse (by intro hc; cases hc; exact h rfl)
    | .error _, .ok _ => .isFalse (fun hc => nomatch hc)
    | .ok _, .error _ => .isFalse (fun hc => nomatch hc)
    | .ok a1, .ok a2 =>
      if h : a1 = a2 then .isTrue (h ▸ rfl)
      else .isFalse (by intro hc; cases hc; exact h rfl)

instance : IsTotal Plane planeLe := by
  constructor
  intro a b
  unfold planeLe Scheduler.compare
  cases ha : a.emergency <;> cases hb : b.emergency <;>
    (try split_ifs) <;> (try simp_all) <;> (try omega)

instance : IsTrans Plane planeLe := by
  constructor
  intro a b c hab hbc
  unfold planeLe Scheduler.compare at hab hbc ⊢
  cases ha : a.emergency <;> cases hb : b.emergency <;> cases hc : c.emergency <;>
    rw [hb, ha] at hab <;> rw [hc, hb] at hbc <;>
      split_ifs at hab hbc ⊢ <;> (try simp_all) <;> (try omega)

lemma compare_eq_true_iff (a b : Plane) : Scheduler.compare a b = true ↔ specLt a b := by
  unfold Scheduler.compare specLt
  cases ha : a.emergency <;> cases hb : b.emergency <;>
    split_ifs <;> (try simp_all) <;> (try omega)

lemma planeLe_iff_specLe (a b : Plane) : planeLe a b ↔ specLe a b := by
  unfold planeLe Scheduler.compare specLe
  cases ha : a.emergency <;> cases hb : b.emergency <;>
    split_ifs <;> (try simp_all) <;> (try omega)

lemma specLe_refl (p : Plane) : specLe p p := by
  unfold specLe
  right; right; exact ⟨rfl, rfl, le_refl _⟩

lemma getNextPlane_perm (l : List Plane) (h : l ≠ []) (cur : Plane) (rest : List Plane)
    (hx : Scheduler.getNextPlane l = (cur, rest)) : l.Perm (cur :: rest) := by
  have hperm := List.perm_insertionSort planeLe l
  unfold Scheduler.getNextPlane at hx
  cases hsl : List.insertionSort planeLe l with
  | nil =>
    rw [hsl] at hperm
    exact absurd hperm.nil_eq.symm h
  | cons p tail =>
    rw [hsl] at hx hperm
    injection hx with h1 h2
    subst h1
    subst h2
    exact hperm.symm

lemma getNextPlane_min (l : List Plane) (cur : Plane) (rest : List Plane)
    (hx : Scheduler.getNextPlane l = (cur, rest)) : ∀ q ∈ l, q = cur ∨ planeLe cur q := by
  have hperm := List.perm_insertionSort planeLe l
  have hsorted := List.sorted_insertionSort planeLe l
  unfold Scheduler.getNextPlane at hx
  cases hsl : List.insertionSort planeLe l with
  | nil =>
    rw [hsl] at hperm
    intro q hq
    exact absurd (hperm.mem_iff.mpr hq) (List.not_mem_nil q)
  | cons p tail =>
    rw [hsl] at hx hperm hsorted
    injection hx with h1 h2
    subst h1
    subst h2
    intro q hq
    have hq2 : q ∈ p :: tail := hperm.symm.mem_iff.mp hq
    rcases List.mem_cons.mp hq2 with h1 | h2
    · exact Or.inl h1
    · exact Or.inr (List.rel_of_sorted_cons hsorted q h2)

lemma getNextPlane_cases (l : List Plane) :
    (l = [] ∧ Scheduler.getNextPlane l = (sentinelPlane, [])) ∨
      l.Perm ((Scheduler.getNextPlane l).1 :: (Scheduler.getNextPlane l).2) := by
  by_cases h : l = []
  · subst h; exact Or.inl ⟨rfl, rfl⟩
  · exact Or.inr (getNextPlane_perm l h _ _ rfl)

lemma setRange_length (len : Nat) : ∀ (memory : List Nat) (start v : Nat),
    (setRange memory start len v).length = memory.length := by
  induction len with
  | zero => intro memory start v; rfl
  | succ n ih =>
    intro memory start v
    show (setRange (memory.set start v) (start+1) n v).length = memory.length
    rw [ih, List.length_set]

lemma setRange_getElem? (len : Nat) : ∀ (memory : List Nat) (start v k : Nat),
    (setRange memory start len v)[k]? =
      if start ≤ k ∧ k < start + len ∧ k < memory.length then some v
      else memory[k]? := by
  induction len with
  | zero =>
    intro memory start v k
    rw [if_neg (by omega)]
    rfl
  | succ n ih =>
    intro memory start v k
    show (setRange (memory.set start v) (start+1) n v)[k]? = _
    rw [ih, List.length_set]
    by_cases h1 : start + 1 ≤ k ∧ k < start + 1 + n ∧ k < memory.length
    · rw [if_pos h1, if_pos (by omega)]
    · rw [if_neg h1, List.getElem?_set]
      by_cases h2 : k = start
      · subst h2
        rw [if_pos rfl]
        by_cases h3 : k < memory.length
        · rw [if_pos h3, if_pos (show k ≤ k ∧ k < k + (n+1) ∧ k < memory.length by omega)]
        · rw [if_neg h3, if_neg (show ¬(k ≤ k ∧ k < k + (n+1) ∧ k < memory.length) by omega)]
          exact (List.getElem?_eq_none (by omega)).symm
      · rw [if_neg (fun hc : start = k => h2 hc.symm),
          if_neg (show ¬(start ≤ k ∧ k < start + (n+1) ∧ k < memory.length) by omega)]

lemma setRange_roundtrip (memory : List Nat) (start d : Nat)
    (hfree : ∀ j < d, memory[start + j]? = some 0) :
    setRange (setRange memory start d 1) start d 0 = memory := by
  apply List.ext_getElem?
  intro k
  rw [setRange_getElem?, setRange_getElem?, setRange_length]
  by_cases h : start ≤ k ∧ k < start + d ∧ k < memory.length
  · rw [if_pos h]
    exact (hfree (k - start) (by omega) ▸ congrArg _ (by omega) : memory[k]? = some 0).symm
  · rw [if_neg h, if_neg h]

lemma freeRunLen_sound (memory : List Nat) : ∀ (budget pos j : Nat),
    freeRunLen memory pos budget = .ok j →
    j ≤ budget ∧ (∀ i < j, memory[pos + i]? = some 0) ∧
      (j < budget → ∃ v, memory[pos + j]? = some v ∧ v ≠ 0) := by
  intro budget
  induction budget with
  | zero =>
    intro pos j h
    simp only [freeRunLen] at h
    injection h with h
    subst h
    exact ⟨le_refl _, fun i hi => absurd hi (by omega), fun hc => absurd hc (by omega)⟩
  | succ n ih =>
    intro pos j h
    simp only [freeRunLen] at h
    cases hcell : memory[pos]? with
    | none => rw [hcell] at h; exact absurd h (by simp)
    | some v =>
      rw [hcell] at h
      simp only [] at h
      by_cases hv : v = 0
      · rw [if_pos hv] at h
        cases hrec : freeRunLen memory (pos+1) n with
        | error e => rw [hrec] at h; exact absurd h (by simp)
        | ok j0 =>
          rw [hrec] at h
          simp only [] at h
          injection h with h
          subst h
          obtain ⟨ha, hb, hc⟩ := ih (pos+1) j0 hrec
          refine ⟨by omega, ?_, ?_⟩
          · intro i hi
            cases i with
            | zero => rw [Nat.add_zero, hcell, hv]
            | succ i0 =>
              have : pos + (i0 + 1) = pos + 1 + i0 := by omega
              rw [this]
              exact hb i0 (by omega)
          · intro hlt
            have : pos + (j0 + 1) = pos + 1 + j0 := by omega
            rw [this]
            exact hc (by omega)
      · rw [if_neg hv] at h
        injection h with h
        subst h
        refine ⟨by omega, fun i hi => absurd hi (by omega), fun _ => ⟨v, ?_, hv⟩⟩
        rw [Nat.add_zero, hcell]

lemma freeRunLen_complete (memory : List Nat) : ∀ (budget pos : Nat),
    (∀ i < budget, memory[pos + i]? = some 0) →
    freeRunLen memory pos budget = .ok budget := by
  intro budget
  induction budget with
  | zero => intro pos _; rfl
  | succ n ih =>
    intro pos hfree
    have hcell : memory[pos]? = some 0 := by
      have := hfree 0 (by omega)
      rwa [Nat.add_zero] at this
    have hrec : freeRunLen memory (pos+1) n = .ok n := by
      apply ih
      intro i hi
      have : pos + 1 + i = pos + (i + 1) := by omega
      rw [this]
      exact hfree (i+1) (by omega)
    simp [freeRunLen, hcell, hrec]

lemma freeRunLen_no_error (memory : List Nat) : ∀ (budget pos : Nat),
    pos + budget ≤ memory.length → ∃ j, freeRunLen memory pos budget = .ok j := by
  intro budget
  induction budget with
  | zero => intro pos _; exact ⟨0, rfl⟩
  | succ n ih =>
    intro pos hlen
    have hpos : pos < memory.length := by omega
    have hcell : memory[pos]? = some memory[pos] := List.getElem?_eq_getElem hpos
    by_cases hv : memory[pos] = 0
    · obtain ⟨j, hj⟩ := ih (pos+1) (by omega)
      refine ⟨j + 1, ?_⟩
      simp [freeRunLen, hcell, hv, hj]
    · refine ⟨0, ?_⟩
      simp only [freeRunLen, hcell, if_neg hv]

lemma freeRun_in_bounds (memory : List Nat) (i0 d : Nat) (hd : 0 < d)
    (hfr : freeRun memory i0 d) : i0 + d ≤ memory.length := by
  have := hfr (d - 1) (by omega)
  have hlt := (List.getElem?_eq_some_iff.mp this).1
  omega

lemma allocInv_final (memory : List Nat) (d i : Nat) (best : Int) (bestSz : Nat)
    (hexit : memory.length - d < i)
    (hInv : (best = -1 ∧ bestSz = memory.length + 1 ∧ ∀ i2 < i, ¬ freeRun memory i2 d) ∨
      (∃ i0 : Nat, best = Int.ofNat i0 ∧ bestSz = d ∧ i0 < i ∧ freeRun memory i0 d ∧
        ∀ i2 < i0, ¬ freeRun memory i2 d)) :
    (best = -1 ∧ ∀ i2, ¬ freeRun memory i2 d) ∨
      (∃ i0 : Nat, best = Int.ofNat i0 ∧ freeRun memory i0 d ∧
        ∀ i2 < i0, ¬ freeRun memory i2 d) := by
  rcases hInv with ⟨hb, _, hlt⟩ | ⟨i0, hb, _, _, hfr, hmin⟩
  · left
    refine ⟨hb, fun i2 hfr => ?_⟩
    by_cases hi2 : i2 < i
    · exact hlt i2 hi2 hfr
    · by_cases hd : 0 < d
      · have := freeRun_in_bounds memory i2 d hd hfr
        exact hlt i2 (by omega) hfr
      · have h0 : i2 = 0 ∨ 0 < i2 := by omega
        exact hlt 0 (by omega) (fun j hj => absurd hj (by omega))
  · exact Or.inr ⟨i0, hb, hfr, hmin⟩

lemma allocScan_spec (memory : List Nat) (d : Nat) (hdL : d ≤ memory.length) :
    ∀ (fuel i : Nat) (best : Int) (bestSz : Nat),
    memory.length - d < i + fuel →
    ((best = -1 ∧ bestSz = memory.length + 1 ∧ ∀ i2 < i, ¬ freeRun memory i2 d) ∨
      (∃ i0 : Nat, best = Int.ofNat i0 ∧ bestSz = d ∧ i0 < i ∧ freeRun memory i0 d ∧
        ∀ i2 < i0, ¬ freeRun memory i2 d)) →
    ∃ r : Int, allocScan memory d (memory.length - d) fuel i best bestSz = .ok r ∧
      ((r = -1 ∧ ∀ i2, ¬ freeRun memory i2 d) ∨
        (∃ i0 : Nat, r = Int.ofNat i0 ∧ freeRun memory i0 d ∧
          ∀ i2 < i0, ¬ freeRun memory i2 d)) := by
  intro fuel
  induction fuel with
  | zero =>
    intro i best bestSz hfuel hInv
    exact ⟨best, rfl, allocInv_final memory d i best bestSz (by omega) hInv⟩
  | succ n ih =>
    intro i best bestSz hfuel hInv
    by_cases hib : i ≤ memory.length - d
    · obtain ⟨j, hj⟩ := freeRunLen_no_error memory d i (by omega)
      obtain ⟨hs1, hs2, hs3⟩ := freeRunLen_sound memory d i j hj
      by_cases hcond : j = d ∧ d < bestSz
      · have hjd := hcond.1
        have hfr : freeRun memory i d := fun i2 hi2 => hs2 i2 (by omega)
        have hmin2 : ∀ i2 < i, ¬ freeRun memory i2 d := by
          rcases hInv with ⟨_, hbs, hlt⟩ | ⟨i0, _, hbs, _, _, _⟩
          · exact hlt
          · exact absurd hcond.2 (by omega)
        obtain ⟨r, hr, hfin⟩ := ih (i+1) (Int.ofNat i) d (by omega)
          (Or.inr ⟨i, rfl, rfl, by omega, hfr, hmin2⟩)
        refine ⟨r, ?_, hfin⟩
        simp only [allocScan, if_pos hib, hj, if_pos hcond]
        exact hr
      · obtain ⟨r, hr, hfin⟩ := ih (i+1) best bestSz (by omega) (by
          rcases hInv with ⟨hb, hbs, hlt⟩ | ⟨i0, hb, hbs, hi0, hfr, hmin⟩
          · left
            refine ⟨hb, hbs, fun i2 hi2 => ?_⟩
            by_cases hi2i : i2 < i
            · exact hlt i2 hi2i
            · have hi2eq : i2 = i := by omega
              subst hi2eq
              intro hfr
              have hjd : j ≠ d := fun hjd => hcond ⟨hjd, by omega⟩
              obtain ⟨v, hv, hvne⟩ := hs3 (by omega)
              exact hvne (by rw [hfr j (by omega)] at hv; injection hv with hv; exact hv.symm)
          · exact Or.inr ⟨i0, hb, hbs, by omega, hfr, hmin⟩)
        refine ⟨r, ?_, hfin⟩
        simp only [allocScan, if_pos hib, hj, if_neg hcond]
        exact hr
    · exact ⟨best, by simp only [allocScan, if_neg hib],
        allocInv_final memory d i best bestSz (by omega) hInv⟩

lemma allocScan_oversize (memory : List Nat) (d bound : Nat)
    (hdL : memory.length < d) (hbound : memory.length ≤ bound) :
    ∀ (fuel i : Nat) (best : Int) (bestSz : Nat), i ≤ memory.length →
      memory.length < i + fuel →
      allocScan memory d bound fuel i best bestSz = .error () := by
  intro fuel
  induction fuel with
  | zero => intro i best bestSz hi hfuel; omega
  | succ n ih =>
    intro i best bestSz hi hfuel
    have hib : i ≤ bound := by omega
    cases hres : freeRunLen memory i d with
    | error e =>
      cases e
      simp only [allocScan, if_pos hib, hres]
    | ok j =>
      obtain ⟨hs1, hs2, hs3⟩ := freeRunLen_sound memory d i j hres
      have hjd : j ≠ d := by
        intro hjd
        subst hjd
        have := hs2 (j - 1) (by omega)
        have hlt := (List.getElem?_eq_some_iff.mp this).1
        omega
      have hiL : i < memory.length := by
        rcases Nat.eq_or_lt_of_le hi with heq | hlt
        · exfalso
          cases Nat.eq_zero_or_pos j with
          | inl hj0 =>
            subst hj0
            obtain ⟨v, hv, _⟩ := hs3 (by omega)
            rw [Nat.add_zero, heq] at hv
            rw [List.getElem?_eq_none (le_refl _)] at hv
            exact Option.noConfusion hv
          | inr hjpos =>
            have := hs2 0 hjpos
            rw [Nat.add_zero, heq] at this
            rw [List.getElem?_eq_none (le_refl _)] at this
            exact Option.noConfusion this
        · omega
      simp only [allocScan, if_pos hib, hres]
      by_cases hcond : j = d ∧ d < bestSz
      · exact absurd hcond.1 hjd
      · rw [if_neg hcond]
        exact ih (i+1) best bestSz (by omega) (by omega)

lemma intOfNat_toNat (n : Nat) : (Int.ofNat n).toNat = n := rfl

lemma intOfNat_ne_neg_one (n : Nat) : Int.ofNat n ≠ -1 := by
  rw [Int.ofNat_eq_natCast]
  omega

lemma allocate_eq_of_scan_ok (memory : List Nat) (d : Nat) (best : Int)
    (h : allocScan memory d ((memory.length + 2 ^ 64 - d) % 2 ^ 64)
      ((memory.length + 2 ^ 64 - d) % 2 ^ 64 + 2) 0 (-1) (memory.length + 1) = .ok best) :
    MemoryManager.allocate memory d =
      if best = -1 then .ok (-1, memory)
      else .ok (best, setRange memory best.toNat d 1) := by
  unfold MemoryManager.allocate
  rw [h]

lemma allocate_spec (memory : List Nat) (d : Nat) (hdL : d ≤ memory.length)
    (hlen : memory.length < 2 ^ 64) :
    ∃ (res : Int) (mem2 : List Nat),
      MemoryManager.allocate memory d = .ok (res, mem2) ∧
      ((res = -1 ∧ mem2 = memory ∧ ∀ i, ¬ freeRun memory i d) ∨
        (∃ i0 : Nat, res = Int.ofNat i0 ∧ freeRun memory i0 d ∧
          (∀ i2 < i0, ¬ freeRun memory i2 d) ∧ mem2 = setRange memory i0 d 1)) := by
  have hb : (memory.length + 2 ^ 64 - d) % 2 ^ 64 = memory.length - d := by omega
  obtain ⟨r, hscan, hfin⟩ := allocScan_spec memory d hdL (memory.length - d + 2) 0 (-1)
    (memory.length + 1) (by omega)
    (Or.inl ⟨rfl, rfl, fun i2 hi2 => absurd hi2 (by omega)⟩)
  rw [← hb] at hscan
  have hal := allocate_eq_of_scan_ok memory d r (by rw [hb]; rw [hb] at hscan; exact hscan)
  rcases hfin with ⟨hr, hnone⟩ | ⟨i0, hr, hfr, hmin⟩
  · subst hr
    rw [if_pos rfl] at hal
    exact ⟨-1, memory, hal, Or.inl ⟨rfl, rfl, hnone⟩⟩
  · subst hr
    rw [if_neg (intOfNat_ne_neg_one i0), intOfNat_toNat] at hal
    exact ⟨Int.ofNat i0, setRange memory i0 d 1, hal, Or.inr ⟨i0, rfl, hfr, hmin, rfl⟩⟩

lemma allocate_oversize_err (memory : List Nat) (d : Nat)
    (hdL : memory.length < d) (hd64 : d < 2 ^ 64) (hlen : memory.length < 2 ^ 64) :
    MemoryManager.allocate memory d = .error () := by
  have hbound : memory.length ≤ (memory.length + 2 ^ 64 - d) % 2 ^ 64 := by omega
  have hscan := allocScan_oversize memory d ((memory.length + 2 ^ 64 - d) % 2 ^ 64) hdL hbound
    ((memory.length + 2 ^ 64 - d) % 2 ^ 64 + 2) 0 (-1) (memory.length + 1) (by omega) (by omega)
  unfold MemoryManager.allocate
  rw [hscan]

lemma foldl_freeCount (l : List Nat) : ∀ a : Nat,
    l.foldl (fun freeCount m => if m = 0 then freeCount + 1 else freeCount) a =
      a + countFree l := by
  induction l with
  | nil => intro a; simp [countFree]
  | cons m l ih =>
    intro a
    show l.foldl _ (if m = 0 then a + 1 else a) = _
    rw [ih]
    unfold countFree
    rw [List.countP_cons]
    by_cases hm : m = 0 <;> simp [hm] <;> omega

lemma isSafe_iff (memory : List Nat) (req : Nat) :
    MemoryManager.isSafe memory req = true ↔ req ≤ countFree memory := by
  unfold MemoryManager.isSafe
  rw [foldl_freeCount]
  simp [ge_iff_le]

lemma countFree_le_length (memory : List Nat) : countFree memory ≤ memory.length :=
  List.countP_le_length _

lemma countFree_replicate (n : Nat) : countFree (List.replicate n 0) = n := by
  induction n with
  | zero => rfl
  | succ k ih =>
    unfold countFree at ih ⊢
    rw [List.replicate_succ, List.countP_cons]
    simp [ih]

lemma length_filter_split (p : Plane → Bool) (l : List Plane) :
    (l.filter (fun a => !(p a))).length + (l.filter p).length = l.length := by
  induction l with
  | nil => rfl
  | cons a l ih =>
    by_cases h : p a = true <;> simp [List.filter_cons, h] <;> omega

lemma admitStep_pending (s : SimState) : pending (admitStep s) = pending s := by
  unfold pending admitStep
  simp only [List.length_append]
  have := length_filter_split (fun p => decide (p.arrivalTime ≤ s.time)) s.incoming
  omega

lemma step_eq (s : SimState) (cur : Plane) (rest : List Plane)
    (hget : Scheduler.getNextPlane (admitStep s).ready = (cur, rest)) :
    step s = dispatch (admitStep s) cur rest := by
  unfold step
  rw [hget]

lemma allocate_neg_mem (memory : List Nat) (d : Nat) (mem2 : List Nat)
    (h : MemoryManager.allocate memory d = .ok (-1, mem2)) : mem2 = memory := by
  cases hscan : allocScan memory d ((memory.length + 2 ^ 64 - d) % 2 ^ 64)
      ((memory.length + 2 ^ 64 - d) % 2 ^ 64 + 2) 0 (-1) (memory.length + 1) with
  | error e =>
    unfold MemoryManager.allocate at h
    rw [hscan] at h
    exact absurd h (by simp)
  | ok best =>
    rw [allocate_eq_of_scan_ok memory d best hscan] at h
    by_cases hbest : best = -1
    · rw [if_pos hbest] at h
      injection h with h
      exact (congrArg Prod.snd h).symm
    · rw [if_neg hbest] at h
      injection h with h
      exact absurd (congrArg Prod.fst h) (by simpa using hbest)

lemma dispatch_idle (s1 : SimState) (cur : Plane) (rest : List Plane)
    (hid : cur.id = -1) :
    dispatch s1 cur rest = .ok { s1 with ready := rest, time := s1.time + 1 } := by
  unfold dispatch
  rw [if_pos hid]

lemma dispatch_gate_defer (s1 : SimState) (cur : Plane) (rest : List Plane)
    (hid : cur.id ≠ -1) (hsafe : MemoryManager.isSafe s1.mem cur.size = false) :
    dispatch s1 cur rest = .ok { s1 with ready := rest ++ [cur], time := s1.time + 1 } := by
  unfold dispatch
  rw [if_neg hid, if_pos hsafe]

lemma dispatch_alloc_error (s1 : SimState) (cur : Plane) (rest : List Plane) (e : Unit)
    (hid : cur.id ≠ -1) (hsafe : MemoryManager.isSafe s1.mem cur.size = true)
    (halloc : MemoryManager.allocate s1.mem cur.size = .error e) :
    dispatch s1 cur rest = .error e := by
  unfold dispatch
  rw [if_neg hid, if_neg (by simp [hsafe]), halloc]

lemma dispatch_alloc_fail (s1 : SimState) (cur : Plane) (rest : List Plane)
    (mem2 : List Nat) (hid : cur.id ≠ -1)
    (hsafe : MemoryManager.isSafe s1.mem cur.size = true)
    (halloc : MemoryManager.allocate s1.mem cur.size = .ok (-1, mem2)) :
    dispatch s1 cur rest =
      .ok { s1 with ready := rest ++ [cur], mem := mem2, time := s1.time + 1 } := by
  unfold dispatch
  rw [if_neg hid, if_neg (by simp [hsafe])]
  simp only [halloc]
  exact if_pos trivial

lemma dispatch_success (s1 : SimState) (cur : Plane) (rest : List Plane)
    (memIndex : Int) (mem2 : List Nat) (hid : cur.id ≠ -1)
    (hsafe : MemoryManager.isSafe s1.mem cur.size = true)
    (halloc : MemoryManager.allocate s1.mem cur.size = .ok (memIndex, mem2))
    (hneg : memIndex ≠ -1) :
    dispatch s1 cur rest = .ok { s1 with
      ready := rest,
      mem := MemoryManager.deallocate mem2 memIndex.toNat cur.size,
      time := s1.time + cur.landingTime,
      gantt := s1.gantt ++ [(cur.id, cur.landingTime)] } := by
  unfold dispatch
  rw [if_neg hid, if_neg (by simp [hsafe])]
  simp only [halloc]
  rw [if_neg hneg]

lemma dispatchEvent_success (s1 : SimState) (cur : Plane)
    (memIndex : Int) (mem2 : List Nat) (hid : cur.id ≠ -1)
    (hsafe : MemoryManager.isSafe s1.mem cur.size = true)
    (halloc : MemoryManager.allocate s1.mem cur.size = .ok (memIndex, mem2))
    (hneg : memIndex ≠ -1) :
    dispatchEvent s1 cur = some (cur.id, s1.time, s1.time + cur.landingTime) := by
  unfold dispatchEvent
  rw [if_neg hid, if_neg (by simp [hsafe])]
  simp only [halloc]
  rw [if_neg hneg]

lemma stepEvent_eq (s : SimState) (cur : Plane) (rest : List Plane)
    (hget : Scheduler.getNextPlane (admitStep s).ready = (cur, rest)) :
    stepEvent s = dispatchEvent (admitStep s) cur := by
  unfold stepEvent
  rw [hget]

lemma admitStep_mem (s : SimState) : (admitStep s).mem = s.mem := rfl

lemma admitStep_time (s : SimState) : (admitStep s).time = s.time := rfl

lemma admitStep_gantt (s : SimState) : (admitStep s).gantt = s.gantt := rfl

lemma allocate_success_inv (memory : List Nat) (d : Nat) (memIndex : Int)
    (mem2 : List Nat) (hdL : d ≤ memory.length) (hlen : memory.length < 2 ^ 64)
    (halloc : MemoryManager.allocate memory d = .ok (memIndex, mem2))
    (hneg : memIndex ≠ -1) :
    ∃ i0 : Nat, memIndex = Int.ofNat i0 ∧ freeRun memory i0 d ∧
      (∀ i2 < i0, ¬ freeRun memory i2 d) ∧ mem2 = setRange memory i0 d 1 := by
  obtain ⟨res, mem3, he, hcases⟩ := allocate_spec memory d hdL hlen
  rw [halloc] at he
  injection he with he
  injection he with he1 he2
  subst he1
  subst he2
  rcases hcases with ⟨hr, _⟩ | hB
  · exact absurd hr hneg
  · exact hB

lemma deallocate_setRange (memory : List Nat) (i0 d : Nat)
    (hfr : freeRun memory i0 d) :
    MemoryManager.deallocate (setRange memory i0 d 1) i0 d = memory := by
  unfold MemoryManager.deallocate
  exact setRange_roundtrip memory i0 d hfr

lemma ganttReport_getElem (g : List (Int × Nat)) : ∀ (t i : Nat) (h : i < g.length),
    (ganttReport t g)[i]? =
      some ((g.get ⟨i, h⟩).1, t + ((g.take i).map Prod.snd).sum,
        t + ((g.take i).map Prod.snd).sum + (g.get ⟨i, h⟩).2) := by
  induction g with
  | nil => intro t i h; exact absurd h (by simp)
  | cons hd tl ih =>
    intro t i h
    obtain ⟨id0, d0⟩ := hd
    cases i with
    | zero => simp [ganttReport]
    | succ i0 =>
      have h0 : i0 < tl.length := by simpa using h
      rw [show ganttReport t ((id0, d0) :: tl) = (id0, t, t + d0) :: ganttReport (t + d0) tl
        from rfl]
      rw [List.getElem?_cons_succ, ih (t + d0) i0 h0]
      simp [Nat.add_assoc]

lemma bool_true_of_not_false (b : Bool) (h : ¬(b = false)) : b = true := by
  cases b
  · exact absurd rfl h
  · rfl

/-- Claim C1: for every non-empty ready pool, `extractNext` removes and returns
an entity minimal under the three-key order (emergency first, then lower
urgency/fuel, then shorter serviceDuration/landingTime); exactly one entity is
removed and the rest of the pool is unchanged as a multiset. -/
theorem extractNext_removes_min (ready : List Plane) (hne : ready ≠ [])
    (cur : Plane) (rest : List Plane)
    (hget : Scheduler.getNextPlane ready = (cur, rest)) :
    ready.Perm (cur :: rest) ∧ ∀ q ∈ ready, specLe cur q := by
  refine ⟨getNextPlane_perm ready hne cur rest hget, fun q hq => ?_⟩
  rcases getNextPlane_min ready cur rest hget q hq with h | h
  · subst h
    exact specLe_refl q
  · exact (planeLe_iff_specLe cur q).mp h

theorem extractNext_removes_min_witness :
    ([⟨1, 0, 5, 4, 3, false⟩, ⟨6, 1, 1, 2, 1, true⟩] : List Plane).Perm
        (⟨6, 1, 1, 2, 1, true⟩ :: [⟨1, 0, 5, 4, 3, false⟩]) ∧
      ∀ q ∈ ([⟨1, 0, 5, 4, 3, false⟩, ⟨6, 1, 1, 2, 1, true⟩] : List Plane),
        specLe ⟨6, 1, 1, 2, 1, true⟩ q :=
  extractNext_removes_min _ (by decide) _ _ (by decide)

/-- Claim C2 (code bug): calling `allocate` with a demand exceeding the pool
size (here 8 on an all-free pool of 5 cells) underflows the `size_t` loop
bound `memory.size() - size`, and the scan reads past the end of the pool —
undefined behaviour in the C++, an `Except.error` in this model — instead of
returning -1 as the spec requires. -/
theorem allocate_oversized_demand_oob :
    MemoryManager.allocate (List.replicate 5 0) 8 = .error () :=
  allocate_oversize_err (List.replicate 5 0) 8 (by decide) (by decide) (by decide)

/-- Claim C3 (counterexample): for a single plane with id 1 arriving at time 2
(fuel 5, size 4, landing time 3), the run allocates at simulated time 2 — the
spec-described triple is (1, 2, 5) — but the reported timeline entry is
(1, 0, 3): the report is rebuilt from cumulative durations starting at 0, not
from the actual allocation times. -/
theorem timeline_report_mismatch :
    runTl 10 (simInit [⟨1, 2, 5, 4, 3, false⟩]) [] =
        .ok (⟨[], [], List.replicate 20 0, 5, [(1, 3)]⟩, [(1, 2, 5)]) ∧
      ganttReport 0 [(1, 3)] = [(1, 0, 3)] ∧
      [((1 : Int), (0 : Nat), (3 : Nat))] ≠ [((1 : Int), (2 : Nat), (5 : Nat))] :=
  ⟨by decide, by decide, by decide⟩

/-- Claim C3 (amended): on every successful allocation the engine appends the
pair (entity.id, entity.serviceDuration) to the Timeline — not the triple with
the current simulated time, which is what `stepEvent` records — and the final
report expands entry i of these pairs as (id, s, s + duration) where s is the
sum of the durations of the previous entries, starting from 0. -/
theorem timeline_pairs_and_report :
    (∀ (s : SimState) (cur : Plane) (rest : List Plane) (memIndex : Int)
        (mem2 : List Nat),
      Scheduler.getNextPlane (admitStep s).ready = (cur, rest) →
      cur.id ≠ -1 →
      MemoryManager.isSafe s.mem cur.size = true →
      MemoryManager.allocate s.mem cur.size = .ok (memIndex, mem2) →
      memIndex ≠ -1 →
      step s = .ok { admitStep s with
          ready := rest,
          mem := MemoryManager.deallocate mem2 memIndex.toNat cur.size,
          time := s.time + cur.landingTime,
          gantt := s.gantt ++ [(cur.id, cur.landingTime)] } ∧
        stepEvent s = some (cur.id, s.time, s.time + cur.landingTime)) ∧
    (∀ (g : List (Int × Nat)) (i : Nat) (h : i < g.length),
      (ganttReport 0 g)[i]? =
        some ((g.get ⟨i, h⟩).1, ((g.take i).map Prod.snd).sum,
          ((g.take i).map Prod.snd).sum + (g.get ⟨i, h⟩).2)) := by
  constructor
  · intro s cur rest memIndex mem2 hget hid hsafe halloc hneg
    constructor
    · rw [step_eq s cur rest hget]
      exact dispatch_success _ _ _ _ _ hid hsafe halloc hneg
    · rw [stepEvent_eq s cur rest hget]
      exact dispatchEvent_success _ _ _ _ hid hsafe halloc hneg
  · intro g i h
    have hg := ganttReport_getElem g 0 i h
    simpa using hg

theorem timeline_pairs_and_report_witness :
    (step ⟨[], [⟨1, 0, 5, 4, 3, false⟩], List.replicate 20 0, 0, []⟩ =
        .ok { admitStep ⟨[], [⟨1, 0, 5, 4, 3, false⟩], List.replicate 20 0, 0, []⟩ with
                ready := [],
                mem := MemoryManager.deallocate ([1, 1, 1, 1] ++ List.replicate 16 0)
                  (Int.toNat 0) 4,
                time := 0 + 3,
                gantt := [] ++ [(1, 3)] } ∧
      stepEvent ⟨[], [⟨1, 0, 5, 4, 3, false⟩], List.replicate 20 0, 0, []⟩ =
        some (1, 0, 0 + 3)) ∧
    (ganttReport 0 [(1, 3), (2, 2)])[1]? = some (2, 3, 3 + 2) :=
  ⟨timeline_pairs_and_report.1 ⟨[], [⟨1, 0, 5, 4, 3, false⟩], List.replicate 20 0, 0, []⟩
      ⟨1, 0, 5, 4, 3, false⟩ [] 0 ([1, 1, 1, 1] ++ List.replicate 16 0)
      (by decide) (by decide) (by decide) (by decide) (by decide),
    timeline_pairs_and_report.2 [(1, 3), (2, 2)] 1 (by decide)⟩

/-- Claim C4: every iteration of the simulation loop either strictly shrinks
the set of entities not yet released (the successful-allocation step) or keeps
it the same size and advances simulated time by exactly 1 (idle step, unsafe
check, failed allocation); the loop never repeats a state without advancing
time or releasing an entity. -/
theorem step_progress (s s2 : SimState) (h : step s = .ok s2) :
    pending s2 < pending s ∨ (pending s2 = pending s ∧ s2.time = s.time + 1) := by
  rcases hpr : Scheduler.getNextPlane (admitStep s).ready with ⟨cur, rest⟩
  rw [step_eq s cur rest hpr] at h
  have hpend : pending (admitStep s) = pending s := admitStep_pending s
  simp only [pending] at hpend
  by_cases hid : cur.id = -1
  · rw [dispatch_idle _ _ _ hid] at h
    injection h with h
    subst h
    rcases getNextPlane_cases (admitStep s).ready with ⟨hnil, hval⟩ | hperm
    · rw [hpr] at hval
      injection hval with hv1 hv2
      have h0 : (admitStep s).ready.length = 0 := by rw [hnil]; rfl
      have h1 : rest.length = 0 := by rw [hv2]; rfl
      right
      refine ⟨?_, rfl⟩
      simp only [pending]
      omega
    · rw [hpr] at hperm
      have hlen := hperm.length_eq
      simp only [List.length_cons] at hlen
      left
      simp only [pending]
      omega
  · have hready : (admitStep s).ready.length = rest.length + 1 := by
      rcases getNextPlane_cases (admitStep s).ready with ⟨hnil, hval⟩ | hperm
      · rw [hpr] at hval
        injection hval with hv1 hv2
        exact absurd (congrArg Plane.id hv1) hid
      · rw [hpr] at hperm
        have hlen := hperm.length_eq
        simpa using hlen
    by_cases hsafe : MemoryManager.isSafe (admitStep s).mem cur.size = false
    · rw [dispatch_gate_defer _ _ _ hid hsafe] at h
      injection h with h
      subst h
      right
      refine ⟨?_, rfl⟩
      simp only [pending, List.length_append, List.length_cons, List.length_nil]
      omega
    · have hsafeT := bool_true_of_not_false _ hsafe
      cases halloc : MemoryManager.allocate (admitStep s).mem cur.size with
      | error e =>
        rw [dispatch_alloc_error _ _ _ _ hid hsafeT halloc] at h
        exact absurd h (by simp)
      | ok pr =>
        obtain ⟨memIndex, mem2⟩ := pr
        by_cases hm : memIndex = -1
        · subst hm
          rw [dispatch_alloc_fail _ _ _ _ hid hsafeT halloc] at h
          injection h with h
          subst h
          right
          refine ⟨?_, rfl⟩
          simp only [pending, List.length_append, List.length_cons, List.length_nil]
          omega
        · rw [dispatch_success _ _ _ _ _ hid hsafeT halloc hm] at h
          injection h with h
          subst h
          left
          simp only [pending]
          omega

theorem step_progress_witness :
    pending ⟨[], [], List.replicate 20 0, 3, [(1, 3)]⟩ <
        pending ⟨[], [⟨1, 0, 5, 4, 3, false⟩], List.replicate 20 0, 0, []⟩ ∨
      (pending ⟨[], [], List.replicate 20 0, 3, [(1, 3)]⟩ =
          pending ⟨[], [⟨1, 0, 5, 4, 3, false⟩], List.replicate 20 0, 0, []⟩ ∧
        (⟨[], [], List.replicate 20 0, 3, [(1, 3)]⟩ : SimState).time =
          (⟨[], [⟨1, 0, 5, 4, 3, false⟩], List.replicate 20 0, 0, []⟩ : SimState).time + 1) :=
  step_progress _ _ (by decide)

/-- Claim C5: for every demand d with 0 < d ≤ capacity (pool lengths within
the machine `size_t` range), `allocate` returns the smallest start index of a
contiguous run of d free cells, marks exactly those d cells occupied leaving
every other cell unchanged, and returns -1 if and only if no such run exists
anywhere in the pool. -/
theorem allocate_first_fit (memory : List Nat) (d : Nat) (hd : 0 < d)
    (hdL : d ≤ memory.length) (hlen : memory.length < 2 ^ 64) :
    ∃ (res : Int) (mem2 : List Nat),
      MemoryManager.allocate memory d = .ok (res, mem2) ∧
      ((res = -1 ∧ mem2 = memory ∧ ∀ i, ¬ freeRun memory i d) ∨
        (∃ i0 : Nat, res = Int.ofNat i0 ∧ freeRun memory i0 d ∧
          (∀ i2 < i0, ¬ freeRun memory i2 d) ∧
          (∀ k < d, mem2[i0 + k]? = some 1) ∧
          (∀ k, k < i0 ∨ i0 + d ≤ k → mem2[k]? = memory[k]?))) := by
  obtain ⟨res, mem2, he, hcases⟩ := allocate_spec memory d hdL hlen
  refine ⟨res, mem2, he, ?_⟩
  rcases hcases with hA | ⟨i0, hr, hfr, hmin, hmem⟩
  · exact Or.inl hA
  · right
    have hbound := freeRun_in_bounds memory i0 d hd hfr
    refine ⟨i0, hr, hfr, hmin, ?_, ?_⟩
    · intro k hk
      rw [hmem, setRange_getElem?, if_pos ⟨by omega, by omega, by omega⟩]
    · intro k hk
      rw [hmem, setRange_getElem?, if_neg (by omega)]

theorem allocate_first_fit_witness :
    ∃ (res : Int) (mem2 : List Nat),
      MemoryManager.allocate [1, 0, 0] 2 = .ok (res, mem2) ∧
      ((res = -1 ∧ mem2 = [1, 0, 0] ∧ ∀ i, ¬ freeRun [1, 0, 0] i 2) ∨
        (∃ i0 : Nat, res = Int.ofNat i0 ∧ freeRun [1, 0, 0] i0 2 ∧
          (∀ i2 < i0, ¬ freeRun [1, 0, 0] i2 2) ∧
          (∀ k < 2, mem2[i0 + k]? = some 1) ∧
          (∀ k, k < i0 ∨ i0 + 2 ≤ k → mem2[k]? = [1, 0, 0][k]?))) :=
  allocate_first_fit [1, 0, 0] 2 (by decide) (by decide) (by decide)

/-- Claim C6: `isSafe` returns true exactly when the number of free cells is
at least the demand; in particular it ignores fragmentation, e.g. it accepts
demand 2 on the pool [free, occupied, free] although no contiguous free run of
length 2 exists. -/
theorem isSafe_counts_free_units :
    (∀ (memory : List Nat) (req : Nat),
      MemoryManager.isSafe memory req = true ↔ req ≤ countFree memory) ∧
    (MemoryManager.isSafe [0, 1, 0] 2 = true ∧ ∀ i, ¬ freeRun [0, 1, 0] i 2) := by
  refine ⟨isSafe_iff, by decide, ?_⟩
  intro i hfr
  match i with
  | 0 => exact absurd (hfr 1 (by omega)) (by decide)
  | 1 => exact absurd (hfr 0 (by omega)) (by decide)
  | (n+2) =>
    have hcell := hfr 1 (by omega)
    rw [List.getElem?_eq_none (by simp)] at hcell
    exact Option.noConfusion hcell

theorem isSafe_counts_free_units_witness :
    (MemoryManager.isSafe [0, 0] 1 = true ↔ 1 ≤ countFree [0, 0]) ∧
      ¬ freeRun [0, 1, 0] 0 2 :=
  ⟨isSafe_counts_free_units.1 [0, 0] 1, isSafe_counts_free_units.2.2 0⟩

/-- Claim C7: whenever `allocate` succeeds with start index s (machine-range
pool and demand), immediately calling `release(s, d)` restores the pool to
exactly the free/occupied layout it had before the allocation. -/
theorem allocate_release_roundtrip (memory : List Nat) (d : Nat) (memIndex : Int)
    (mem2 : List Nat) (hlen : memory.length < 2 ^ 64) (hd64 : d < 2 ^ 64)
    (halloc : MemoryManager.allocate memory d = .ok (memIndex, mem2))
    (hneg : memIndex ≠ -1) :
    MemoryManager.deallocate mem2 memIndex.toNat d = memory := by
  by_cases hdL : d ≤ memory.length
  · obtain ⟨i0, hr, hfr, _, hm2⟩ :=
      allocate_success_inv memory d memIndex mem2 hdL hlen halloc hneg
    rw [hr, intOfNat_toNat, hm2]
    exact deallocate_setRange memory i0 d hfr
  · rw [allocate_oversize_err memory d (by omega) hd64 hlen] at halloc
    exact absurd halloc (by simp)

theorem allocate_release_roundtrip_witness :
    MemoryManager.deallocate [1, 1, 1] (Int.toNat 1) 2 = [1, 0, 0] :=
  allocate_release_roundtrip [1, 0, 0] 2 1 [1, 1, 1] (by decide) (by decide)
    (by decide) (by decide)

/-- Claim C8: when the safety check fails, or when allocation returns -1, the
step re-admits the extracted entity unchanged at the back of the ready queue,
leaves the airspace and the Gantt timeline unchanged, advances time by exactly
1, and raises no error. -/
theorem deferral_readmits_unchanged (s : SimState) (cur : Plane) (rest : List Plane)
    (hget : Scheduler.getNextPlane (admitStep s).ready = (cur, rest))
    (hid : cur.id ≠ -1)
    (hfail : MemoryManager.isSafe s.mem cur.size = false ∨
      MemoryManager.allocate s.mem cur.size = .ok (-1, s.mem)) :
    step s = .ok { admitStep s with ready := rest ++ [cur], time := s.time + 1 } := by
  rw [step_eq s cur rest hget]
  rcases hfail with hsafeF | halloc
  · exact dispatch_gate_defer _ _ _ hid hsafeF
  · by_cases hsafe : MemoryManager.isSafe (admitStep s).mem cur.size = false
    · exact dispatch_gate_defer _ _ _ hid hsafe
    · have hsafeT := bool_true_of_not_false _ hsafe
      exact dispatch_alloc_fail _ _ _ _ hid hsafeT halloc

theorem deferral_readmits_unchanged_witness :
    step ⟨[], [⟨1, 0, 5, 25, 3, false⟩], List.replicate 20 0, 0, []⟩ =
      .ok { admitStep ⟨[], [⟨1, 0, 5, 25, 3, false⟩], List.replicate 20 0, 0, []⟩ with
              ready := [] ++ [⟨1, 0, 5, 25, 3, false⟩], time := 0 + 1 } :=
  deferral_readmits_unchanged _ _ _ (by decide) (by decide) (Or.inl (by decide))

/-- Claim C9: the simulation starts with every cell of the capacity-20 pool
free, and every loop iteration that starts with an all-free pool ends with an
all-free pool (each successful allocation is released within the same step),
so every safety check and allocation attempt runs against an empty pool. -/
theorem airspace_all_free_invariant :
    (∀ planes : List Plane, (simInit planes).mem = List.replicate 20 0) ∧
    (∀ s s2 : SimState, s.mem = List.replicate 20 0 → step s = .ok s2 →
      s2.mem = List.replicate 20 0) := by
  constructor
  · intro planes
    rfl
  · intro s s2 hmem h
    rcases hpr : Scheduler.getNextPlane (admitStep s).ready with ⟨cur, rest⟩
    rw [step_eq s cur rest hpr] at h
    by_cases hid : cur.id = -1
    · rw [dispatch_idle _ _ _ hid] at h
      injection h with h
      subst h
      exact hmem
    · by_cases hsafe : MemoryManager.isSafe (admitStep s).mem cur.size = false
      · rw [dispatch_gate_defer _ _ _ hid hsafe] at h
        injection h with h
        subst h
        exact hmem
      · have hsafeT := bool_true_of_not_false _ hsafe
        cases halloc : MemoryManager.allocate (admitStep s).mem cur.size with
        | error e =>
          rw [dispatch_alloc_error _ _ _ _ hid hsafeT halloc] at h
          exact absurd h (by simp)
        | ok pr =>
          obtain ⟨memIndex, mem2⟩ := pr
          by_cases hm : memIndex = -1
          · subst hm
            rw [dispatch_alloc_fail _ _ _ _ hid hsafeT halloc] at h
            injection h with h
            subst h
            show mem2 = List.replicate 20 0
            rw [allocate_neg_mem _ _ _ halloc]
            exact hmem
          · rw [dispatch_success _ _ _ _ _ hid hsafeT halloc hm] at h
            injection h with h
            subst h
            show MemoryManager.deallocate mem2 memIndex.toNat cur.size =
              List.replicate 20 0
            have hdL : cur.size ≤ (admitStep s).mem.length := by
              have hsz := (isSafe_iff _ _).mp hsafeT
              have hle := countFree_le_length (admitStep s).mem
              omega
            have hlen : (admitStep s).mem.length < 2 ^ 64 := by
              rw [admitStep_mem, hmem]
              simp
            obtain ⟨i0, hr, hfr, _, hm2⟩ :=
              allocate_success_inv _ _ _ _ hdL hlen halloc hm
            rw [hr, intOfNat_toNat, hm2, deallocate_setRange _ _ _ hfr]
            exact hmem

theorem airspace_all_free_invariant_witness :
    (⟨[], [], List.replicate 20 0, 3, [(1, 3)]⟩ : SimState).mem =
      List.replicate 20 0 :=
  airspace_all_free_invariant.2 ⟨[], [⟨1, 0, 5, 4, 3, false⟩], List.replicate 20 0, 0, []⟩
    ⟨[], [], List.replicate 20 0, 3, [(1, 3)]⟩ rfl (by decide)

/-- Claim C10: extracting from an empty ready pool returns the sentinel plane
Plane(-1, 0, 0, 0, 0), and the engine treats any extracted plane whose id is
-1 as the empty-pool case: the step advances time by 1 and the plane is not
re-admitted, not served (no Gantt entry) — it is dropped. -/
theorem sentinel_empty_and_drop :
    Scheduler.getNextPlane [] = (sentinelPlane, []) ∧
    (∀ (s : SimState) (cur : Plane) (rest : List Plane),
      Scheduler.getNextPlane (admitStep s).ready = (cur, rest) → cur.id = -1 →
      step s = .ok { admitStep s with ready := rest, time := s.time + 1 }) := by
  refine ⟨rfl, fun s cur rest hget hid => ?_⟩
  rw [step_eq s cur rest hget]
  exact dispatch_idle _ _ _ hid

theorem sentinel_empty_and_drop_witness :
    step ⟨[], [⟨-1, 0, 0, 0, 0, false⟩], List.replicate 20 0, 5, []⟩ =
      .ok { admitStep ⟨[], [⟨-1, 0, 0, 0, 0, false⟩], List.replicate 20 0, 5, []⟩ with
              ready := [], time := 5 + 1 } :=
  sentinel_empty_and_drop.2 ⟨[], [⟨-1, 0, 0, 0, 0, false⟩], List.replicate 20 0, 5, []⟩
    ⟨-1, 0, 0, 0, 0, false⟩ [] (by decide) (by decide)
